import Mathlib

/-!
Verification development for the aesdsocket server (src/server/aesdsocket.c).

The server core is embedded shallowly: bytes are natural numbers, the log
file content is a list of bytes (with an Option wrapper where existence
matters), and the per-connection worker loop of handle_client is translated
into pure recursive functions.  Concurrency is modelled by serialized
operation traces: the single file mutex in the C code serializes every
append and stream operation, so the observable log history is a linear
sequence of atomic operations.
-/

namespace Aesdsocket

/-- The newline byte, 0x0A, which terminates a record (aesdsocket.c line 296). -/
def NEWLINE : Nat := 10

/-- BUFFER_SIZE from aesdsocket.c line 31. -/
def BUFFER_SIZE : Nat := 1024

/-- Model of the memchr-based framing step in handle_client (lines 296-298):
if the buffer contains a newline byte, return the packet (the prefix up to
and including the first newline) together with the remainder of the buffer;
otherwise return none. -/
def splitFirst : List Nat → Option (List Nat × List Nat)
  | [] => none
  | b :: rest =>
    if b = NEWLINE then some ([NEWLINE], rest)
    else
      match splitFirst rest with
      | none => none
      | some (p, r) => some (b :: p, r)

theorem splitFirst_append {buf p r : List Nat} (h : splitFirst buf = some (p, r)) :
    p ++ r = buf := by
  induction buf generalizing p r with
  | nil => simp [splitFirst] at h
  | cons b rest ih =>
    by_cases hb : b = NEWLINE
    · simp [splitFirst, hb] at h
      obtain ⟨hp, hr⟩ := h
      subst hp; subst hr; simp [hb]
    · simp only [splitFirst, if_neg hb] at h
      cases hrest : splitFirst rest with
      | none => rw [hrest] at h; simp at h
      | some pr =>
        obtain ⟨p', r'⟩ := pr
        rw [hrest] at h
        simp at h
        obtain ⟨hp, hr⟩ := h
        subst hp; subst hr
        simp [ih hrest]

theorem splitFirst_length {buf p r : List Nat} (h : splitFirst buf = some (p, r)) :
    r.length < buf.length := by
  have hpr := splitFirst_append h
  have hp : p ≠ [] := by
    intro hnil
    induction buf generalizing p r with
    | nil => simp [splitFirst] at h
    | cons b rest ih =>
      by_cases hb : b = NEWLINE
      · simp [splitFirst, hb] at h
        obtain ⟨hp', _⟩ := h
        rw [← hp'] at hnil
        simp at hnil
      · simp only [splitFirst, if_neg hb] at h
        cases hrest : splitFirst rest with
        | none => rw [hrest] at h; simp at h
        | some pr =>
          obtain ⟨p', r'⟩ := pr
          rw [hrest] at h
          simp at h
          obtain ⟨hp', _⟩ := h
          rw [← hp'] at hnil
          simp at hnil
  calc r.length < p.length + r.length := by
        have : 0 < p.length := List.length_pos.mpr hp
        omega
    _ = buf.length := by rw [← hpr]; simp

theorem splitFirst_none_iff {buf : List Nat} :
    splitFirst buf = none ↔ NEWLINE ∉ buf := by
  induction buf with
  | nil => simp [splitFirst]
  | cons b rest ih =>
    by_cases hb : b = NEWLINE
    · simp [splitFirst, hb]
    · simp only [splitFirst, if_neg hb]
      cases hrest : splitFirst rest with
      | none =>
        simp only [List.mem_cons]
        constructor
        · intro _
          push_neg
          exact ⟨fun hc => hb hc.symm, ih.mp hrest⟩
        · intro _; trivial
      | some pr =>
        obtain ⟨p', r'⟩ := pr
        simp only [List.mem_cons]
        constructor
        · intro hc; exact absurd hc (by simp)
        · intro hc
          exfalso
          have : NEWLINE ∈ rest := by
            by_contra hmem
            rw [ih.mpr hmem] at hrest
            simp at hrest
          exact hc (Or.inr this)

/-- Model of the inner packet-processing while loop of handle_client
(aesdsocket.c lines 294-327): while the buffer contains a newline, the
packet up to and including the first newline is appended to the log file
(lines 300-312) and the whole current file content is then streamed back to
the client (line 315).  Returns the final log content, the remaining
(incomplete) buffer, and the list of stream-back outputs in order. -/
def processBuffer (log buf : List Nat) : List Nat × List Nat × List (List Nat) :=
  match h : splitFirst buf with
  | none => (log, buf, [])
  | some (p, r) =>
    let res := processBuffer (log ++ p) r
    (res.1, res.2.1, (log ++ p) :: res.2.2)
termination_by buf.length
decreasing_by exact splitFirst_length h

/-- The complete records framed out of a buffer, in arrival order: each is a
prefix ending at the first newline of what remains. -/
def records : List Nat → List (List Nat)
  | [] => []
  | b :: rest =>
    if b = NEWLINE then [NEWLINE] :: records rest
    else
      match records rest with
      | [] => []
      | p :: ps => (b :: p) :: ps

/-- The trailing bytes of a buffer after its last complete record (the part
with no terminating newline). -/
def leftover : List Nat → List Nat
  | [] => []
  | b :: rest =>
    if b = NEWLINE then leftover rest
    else
      match records rest with
      | [] => b :: rest
      | _ :: _ => leftover rest

/-- The stream-back outputs the specification prescribes for a sequence of
records: after each record the entire current log content, which is the
starting log followed by all records appended so far. -/
def expectedStreams (log : List Nat) : List (List Nat) → List (List Nat)
  | [] => []
  | r :: rs => (log ++ r) :: expectedStreams (log ++ r) rs

theorem processBuffer_none {log buf : List Nat} (h : splitFirst buf = none) :
    processBuffer log buf = (log, buf, []) := by
  rw [processBuffer.eq_def]
  split
  · rfl
  · rename_i p r heq
    rw [h] at heq
    exact absurd heq (by simp)

theorem processBuffer_some {log buf p r : List Nat} (h : splitFirst buf = some (p, r)) :
    processBuffer log buf =
      ((processBuffer (log ++ p) r).1, (processBuffer (log ++ p) r).2.1,
        (log ++ p) :: (processBuffer (log ++ p) r).2.2) := by
  rw [processBuffer.eq_def]
  split
  · rename_i heq
    rw [h] at heq
    exact absurd heq (by simp)
  · rename_i p' r' heq
    rw [h] at heq
    injection heq with heq'
    injection heq' with hp hr
    subst hp; subst hr
    rfl

theorem records_none {buf : List Nat} (h : splitFirst buf = none) :
    records buf = [] := by
  induction buf with
  | nil => rfl
  | cons b rest ih =>
    by_cases hb : b = NEWLINE
    · simp [splitFirst, hb] at h
    · simp only [splitFirst, if_neg hb] at h
      cases hrest : splitFirst rest with
      | none => simp [records, if_neg hb, ih hrest]
      | some pr => rw [hrest] at h; obtain ⟨p', r'⟩ := pr; simp at h

theorem records_some {buf p r : List Nat} (h : splitFirst buf = some (p, r)) :
    records buf = p :: records r := by
  induction buf generalizing p r with
  | nil => simp [splitFirst] at h
  | cons b rest ih =>
    by_cases hb : b = NEWLINE
    · simp [splitFirst, hb] at h
      obtain ⟨hp, hr⟩ := h
      subst hp; subst hr
      simp [records, hb]
    · simp only [splitFirst, if_neg hb] at h
      cases hrest : splitFirst rest with
      | none => rw [hrest] at h; simp at h
      | some pr' =>
        obtain ⟨p', r'⟩ := pr'
        rw [hrest] at h
        simp at h
        obtain ⟨hp, hr⟩ := h
        subst hp; subst hr
        simp [records, if_neg hb, ih hrest]

theorem leftover_none {buf : List Nat} (h : splitFirst buf = none) :
    leftover buf = buf := by
  induction buf with
  | nil => rfl
  | cons b rest ih =>
    by_cases hb : b = NEWLINE
    · simp [splitFirst, hb] at h
    · simp only [splitFirst, if_neg hb] at h
      cases hrest : splitFirst rest with
      | none => simp [leftover, if_neg hb, records_none hrest]
      | some pr => rw [hrest] at h; obtain ⟨p', r'⟩ := pr; simp at h

theorem leftover_some {buf p r : List Nat} (h : splitFirst buf = some (p, r)) :
    leftover buf = leftover r := by
  induction buf generalizing p r with
  | nil => simp [splitFirst] at h
  | cons b rest ih =>
    by_cases hb : b = NEWLINE
    · simp [splitFirst, hb] at h
      obtain ⟨_, hr⟩ := h
      subst hr
      simp [leftover, hb]
    · simp only [splitFirst, if_neg hb] at h
      cases hrest : splitFirst rest with
      | none => rw [hrest] at h; simp at h
      | some pr' =>
        obtain ⟨p', r'⟩ := pr'
        rw [hrest] at h
        simp at h
        obtain ⟨_, hr⟩ := h
        subst hr
        simp [leftover, if_neg hb, records_some hrest]
        exact ih hrest


theorem records_join_leftover (buf : List Nat) :
    (records buf).flatten ++ leftover buf = buf := by
  generalize hn : buf.length = n
  induction n using Nat.strong_induction_on generalizing buf with
  | _ n ih =>
    cases h : splitFirst buf with
    | none => simp [records_none h, leftover_none h]
    | some pr =>
      obtain ⟨p, r⟩ := pr
      have hlt : r.length < buf.length := splitFirst_length h
      subst hn
      have hr := ih r.length hlt r rfl
      rw [records_some h, leftover_some h]
      rw [List.flatten_cons, List.append_assoc, hr]
      exact splitFirst_append h

theorem leftover_no_newline (buf : List Nat) : NEWLINE ∉ leftover buf := by
  generalize hn : buf.length = n
  induction n using Nat.strong_induction_on generalizing buf with
  | _ n ih =>
    cases h : splitFirst buf with
    | none =>
      rw [leftover_none h]
      exact splitFirst_none_iff.mp h
    | some pr =>
      obtain ⟨p, r⟩ := pr
      have hlt : r.length < buf.length := splitFirst_length h
      subst hn
      rw [leftover_some h]
      exact ih r.length hlt r rfl

/-- The packet loop of handle_client computes exactly the record/stream
semantics: the final log is the starting log followed by every complete
record in order, the remaining buffer is the unterminated tail, and the
i-th stream-back output is the entire log after the first i+1 appends. -/
theorem processBuffer_eq (log buf : List Nat) :
    processBuffer log buf
      = (log ++ (records buf).flatten, leftover buf, expectedStreams log (records buf)) := by
  generalize hn : buf.length = n
  induction n using Nat.strong_induction_on generalizing log buf with
  | _ n ih =>
    cases h : splitFirst buf with
    | none =>
      rw [processBuffer_none h, records_none h, leftover_none h]
      simp [expectedStreams]
    | some pr =>
      obtain ⟨p, r⟩ := pr
      have hlt : r.length < buf.length := splitFirst_length h
      subst hn
      have hr := ih r.length hlt (log ++ p) r rfl
      rw [processBuffer_some h, records_some h, leftover_some h, hr]
      simp [expectedStreams]

theorem expectedStreams_mem {log final s : List Nat} {rs : List (List Nat)}
    (hmem : s ∈ expectedStreams log rs) (hfin : final = log ++ rs.flatten) :
    ∃ t, s ++ t = final := by
  induction rs generalizing log with
  | nil => simp [expectedStreams] at hmem
  | cons r rest ih =>
    simp only [expectedStreams, List.mem_cons] at hmem
    cases hmem with
    | inl hs =>
      subst hs
      exact ⟨rest.flatten, by rw [hfin]; simp⟩
    | inr hs =>
      exact ih hs (by rw [hfin]; simp)

/-- C1: every complete record in the worker's receive buffer (each prefix
ending at the first newline byte) is appended to the log exactly as framed,
and each append is followed by a stream-back of the entire current log
content, records being processed one at a time in arrival order; in
particular, the bytes of the string a-newline-b-newline-c-newline produce
the three stream-backs a, then a b, then a b c (newline-terminated). -/
theorem c1_complete_records_appended_and_streamed :
    (∀ log buf,
      (processBuffer log buf).1 = log ++ (records buf).flatten ∧
        (processBuffer log buf).2.2 = expectedStreams log (records buf)) ∧
      (processBuffer [] [97, 10, 98, 10, 99, 10]).2.2
        = [[97, 10], [97, 10, 98, 10], [97, 10, 98, 10, 99, 10]] := by
  refine ⟨fun log buf => ?_, by rw [processBuffer_eq]; decide⟩
  rw [processBuffer_eq]
  exact ⟨rfl, rfl⟩

/-- An atomic Log Store operation as serialized by file_mutex: an append of
a record's bytes (handle_client lines 300-312, or timer_handler lines
73-83), or a stream of the whole file to a client (send_file_to_client
lines 212-242).  Because every one of these code paths holds file_mutex
from before fopen until after fclose, the observable history of the log
file is a linear sequence of these operations. -/
inductive LogOp
  | append (r : List Nat)
  | streamTo
deriving DecidableEq

/-- The records appended over a trace, in serialization order. -/
def appendsOf : List LogOp → List (List Nat)
  | [] => []
  | LogOp.append r :: ops => r :: appendsOf ops
  | LogOp.streamTo :: ops => appendsOf ops

/-- Log file content after a serialized trace of operations, starting from
the empty (freshly created) file. -/
def logAfter (ops : List LogOp) : List Nat := (appendsOf ops).flatten

/-- Output of a stream operation at position k of the trace: the whole file
content at that moment (send_file_to_client reads from offset 0 to
end-of-file while holding the mutex). -/
def streamAt (ops : List LogOp) (k : Nat) : List Nat := logAfter (ops.take k)

theorem appendsOf_mem {ops : List LogOp} {i : Nat} {a : List Nat}
    (h : ops[i]? = some (LogOp.append a)) : a ∈ appendsOf ops := by
  induction ops generalizing i with
  | nil => simp at h
  | cons op rest ih =>
    cases i with
    | zero =>
      simp at h
      subst h
      simp [appendsOf]
    | succ i' =>
      simp at h
      cases op with
      | append r => simp [appendsOf]; exact Or.inr (ih h)
      | streamTo => simp [appendsOf]; exact ih h

theorem appendsOf_getElem {ops : List LogOp} {i : Nat} {a : List Nat}
    (h : ops[i]? = some (LogOp.append a)) :
    ∃ l : Nat, (appendsOf ops)[l]? = some a := by
  induction ops generalizing i with
  | nil => simp at h
  | cons op rest ih =>
    cases i with
    | zero =>
      simp at h
      subst h
      exact ⟨0, by simp [appendsOf]⟩
    | succ i' =>
      simp at h
      cases op with
      | append r =>
        obtain ⟨l, hl⟩ := ih h
        refine ⟨l + 1, ?_⟩
        simp [appendsOf, hl]
      | streamTo =>
        obtain ⟨l, hl⟩ := ih h
        refine ⟨l, ?_⟩
        simp [appendsOf, hl]

theorem appendsOf_pair {ops : List LogOp} {i j : Nat} {a b : List Nat}
    (hij : i < j) (ha : ops[i]? = some (LogOp.append a))
    (hb : ops[j]? = some (LogOp.append b)) :
    ∃ l m : Nat, l < m ∧ (appendsOf ops)[l]? = some a ∧ (appendsOf ops)[m]? = some b := by
  induction ops generalizing i j with
  | nil => simp at ha
  | cons op rest ih =>
    cases i with
    | zero =>
      simp at ha
      subst ha
      obtain ⟨j', hj⟩ : ∃ j', j = j' + 1 := ⟨j - 1, by omega⟩
      subst hj
      simp at hb
      obtain ⟨m, hm⟩ := appendsOf_getElem hb
      refine ⟨0, m + 1, by omega, ?_, ?_⟩
      · simp [appendsOf]
      · simp [appendsOf, hm]
    | succ i' =>
      obtain ⟨j', hj⟩ : ∃ j', j = j' + 1 := ⟨j - 1, by omega⟩
      subst hj
      simp at ha hb
      obtain ⟨l, m, hlm, hl, hm⟩ := ih (by omega) ha hb
      cases op with
      | append r =>
        refine ⟨l + 1, m + 1, by omega, ?_, ?_⟩
        · simp [appendsOf, hl]
        · simp [appendsOf, hm]
      | streamTo =>
        refine ⟨l, m, hlm, ?_, ?_⟩
        · simp [appendsOf, hl]
        · simp [appendsOf, hm]

theorem flatten_mem_split {a : List Nat} {rs : List (List Nat)} (h : a ∈ rs) :
    ∃ s t, rs.flatten = s ++ a ++ t := by
  induction rs with
  | nil => simp at h
  | cons r rest ih =>
    rcases List.mem_cons.mp h with hr | hr
    · subst hr
      exact ⟨[], rest.flatten, by simp⟩
    · obtain ⟨s, t, hst⟩ := ih hr
      exact ⟨r ++ s, t, by simp [hst]⟩

/-- C2: in the serialized operation history of the Log Store, if the append
of record a completes before the append of record b begins (positions i
before j in the trace), then in the output of any later stream operation
the record a appears at an earlier record index than b; any record appended
before the stream begins is fully present in the stream output; and
operations issued after the stream begins (modelled by extending the trace)
do not change that output. -/
theorem c2_log_store_total_order (ops ext : List LogOp) (a b : List Nat) (i j k : Nat)
    (hij : i < j) (hjk : j < k) (hk : k ≤ ops.length)
    (ha : ops[i]? = some (LogOp.append a)) (hb : ops[j]? = some (LogOp.append b)) :
    (∃ l m : Nat, l < m ∧ (appendsOf (ops.take k))[l]? = some a ∧
        (appendsOf (ops.take k))[m]? = some b) ∧
      (∃ s t, streamAt ops k = s ++ a ++ t) ∧
      streamAt (ops ++ ext) k = streamAt ops k := by
  have hai : (ops.take k)[i]? = some (LogOp.append a) := by
    rw [List.getElem?_take]
    simp only [show i < k by omega, if_pos]
    exact ha
  have hbj : (ops.take k)[j]? = some (LogOp.append b) := by
    rw [List.getElem?_take]
    simp only [hjk, if_pos]
    exact hb
  refine ⟨appendsOf_pair hij hai hbj, ?_, ?_⟩
  · exact flatten_mem_split (appendsOf_mem hai)
  · simp only [streamAt, logAfter]
    rw [List.take_append_of_le_length hk]

/-- Witness for c2_log_store_total_order: two appends followed by a stream,
then an append extension arriving after the stream began. -/
theorem c2_log_store_total_order_witness :
    (0 : Nat) < 1 ∧ (1 : Nat) < 2 ∧
      2 ≤ ([LogOp.append [97, 10], LogOp.append [98, 10], LogOp.streamTo] : List LogOp).length ∧
      ([LogOp.append [97, 10], LogOp.append [98, 10], LogOp.streamTo] : List LogOp)[0]?
        = some (LogOp.append [97, 10]) ∧
      ([LogOp.append [97, 10], LogOp.append [98, 10], LogOp.streamTo] : List LogOp)[1]?
        = some (LogOp.append [98, 10]) ∧
      ((∃ l m : Nat, l < m ∧
          (appendsOf (([LogOp.append [97, 10], LogOp.append [98, 10], LogOp.streamTo]
            : List LogOp).take 2))[l]? = some [97, 10] ∧
          (appendsOf (([LogOp.append [97, 10], LogOp.append [98, 10], LogOp.streamTo]
            : List LogOp).take 2))[m]? = some [98, 10]) ∧
        (∃ s t, streamAt [LogOp.append [97, 10], LogOp.append [98, 10], LogOp.streamTo] 2
          = s ++ [97, 10] ++ t) ∧
        streamAt ([LogOp.append [97, 10], LogOp.append [98, 10], LogOp.streamTo]
            ++ [LogOp.append [99, 10]]) 2
          = streamAt [LogOp.append [97, 10], LogOp.append [98, 10], LogOp.streamTo] 2) :=
  ⟨by decide, by decide, by decide, by decide, by decide,
    c2_log_store_total_order
      [LogOp.append [97, 10], LogOp.append [98, 10], LogOp.streamTo]
      [LogOp.append [99, 10]] [97, 10] [98, 10] 0 1 2
      (by decide) (by decide) (by decide) (by decide) (by decide)⟩

/-- Primitive events of the code paths that touch the log file, together
with the file mutex operations surrounding them. -/
inductive FileStep
  | lock | unlock | fopenStep | fcloseStep | freadStep | fwriteStep | sendStep | logErr
deriving DecidableEq

/-- Steps that open, read, write or close the log file. -/
def touchesFile : FileStep → Bool
  | .fopenStep => true
  | .fcloseStep => true
  | .freadStep => true
  | .fwriteStep => true
  | _ => false

/-- Checks, carrying the current mutex hold depth, that every step touching
the file occurs while the mutex is held and that lock and unlock are
balanced over the whole sequence. -/
def wellLockedFrom : Nat → List FileStep → Bool
  | d, [] => d == 0
  | d, .lock :: s => wellLockedFrom (d + 1) s
  | d, .unlock :: s => d != 0 && wellLockedFrom (d - 1) s
  | d, st :: s => (!(touchesFile st) || d != 0) && wellLockedFrom d s

def wellLocked (s : List FileStep) : Bool := wellLockedFrom 0 s

/-- Outcomes of an append code path. -/
inductive AppendPath
  | ok | shortWrite | openFail
deriving DecidableEq

/-- Steps of the append block of handle_client (lines 300-312): lock the
file mutex, fopen for append; on success fwrite the packet (logging an
error if the write is short) and fclose; on open failure log an error; then
unlock. -/
def handle_client_append_steps : AppendPath → List FileStep
  | .ok => [.lock, .fopenStep, .fwriteStep, .fcloseStep, .unlock]
  | .shortWrite => [.lock, .fopenStep, .fwriteStep, .logErr, .fcloseStep, .unlock]
  | .openFail => [.lock, .fopenStep, .logErr, .unlock]

/-- Steps of timer_handler (lines 61-84): lock, fopen for append; on
success fputs the timestamp and fclose, otherwise log an error; unlock. -/
def timer_handler_steps : Bool → List FileStep
  | true => [.lock, .fopenStep, .fwriteStep, .fcloseStep, .unlock]
  | false => [.lock, .fopenStep, .logErr, .unlock]

/-- Outcomes of send_file_to_client: a full stream of n read chunks, a send
failure after m successful chunks, or an fopen failure. -/
inductive StreamPath
  | ok (n : Nat) | sendFail (m : Nat) | openFail

/-- Steps of send_file_to_client (lines 210-244): lock, fopen for read,
then fread/send rounds until a zero-length read, fclose, unlock; on a send
error the file is closed and the mutex released before returning (lines
231-236); on fopen failure an error is logged and the mutex released. -/
def send_file_to_client_steps : StreamPath → List FileStep
  | .ok n => [.lock, .fopenStep]
      ++ (List.replicate n [FileStep.freadStep, FileStep.sendStep]).flatten
      ++ [.freadStep, .fcloseStep, .unlock]
  | .sendFail m => [.lock, .fopenStep]
      ++ (List.replicate m [FileStep.freadStep, FileStep.sendStep]).flatten
      ++ [.freadStep, .sendStep, .logErr, .fcloseStep, .unlock]
  | .openFail => [.lock, .fopenStep, .logErr, .unlock]

theorem wellLockedFrom_rounds (n : Nat) (rest : List FileStep) :
    wellLockedFrom 1 ((List.replicate n [FileStep.freadStep, FileStep.sendStep]).flatten ++ rest)
      = wellLockedFrom 1 rest := by
  induction n with
  | zero => simp
  | succ n ih => simpa [wellLockedFrom, touchesFile] using ih

/-- C3: every code path that opens, reads from or appends to the log file
(the worker append block, the timestamp handler and the stream-back
function) holds the single file mutex from before the fopen until after the
fclose, with balanced lock and unlock; consequently, in the serialized
history, every byte of a stream-back output belongs to some record whose
append had completed before the stream began. -/
theorem c3_file_ops_hold_mutex :
    (∀ ap : AppendPath, wellLocked (handle_client_append_steps ap) = true) ∧
      (∀ ok : Bool, wellLocked (timer_handler_steps ok) = true) ∧
      (∀ sp : StreamPath, wellLocked (send_file_to_client_steps sp) = true) ∧
      (∀ (ops : List LogOp) (k b : Nat), b ∈ streamAt ops k →
        ∃ r, r ∈ appendsOf (ops.take k) ∧ b ∈ r) := by
  refine ⟨fun ap => by cases ap <;> decide, fun ok => by cases ok <;> decide,
    fun sp => ?_, fun ops k b hmem => ?_⟩
  · cases sp with
    | ok n =>
      simp only [send_file_to_client_steps, wellLocked]
      rw [show ([FileStep.lock, FileStep.fopenStep]
          ++ (List.replicate n [FileStep.freadStep, FileStep.sendStep]).flatten
          ++ [FileStep.freadStep, FileStep.fcloseStep, FileStep.unlock])
        = FileStep.lock :: FileStep.fopenStep
          :: ((List.replicate n [FileStep.freadStep, FileStep.sendStep]).flatten
            ++ [FileStep.freadStep, FileStep.fcloseStep, FileStep.unlock]) by simp]
      simp only [wellLockedFrom, touchesFile]
      rw [wellLockedFrom_rounds]
      decide
    | sendFail m =>
      simp only [send_file_to_client_steps, wellLocked]
      rw [show ([FileStep.lock, FileStep.fopenStep]
          ++ (List.replicate m [FileStep.freadStep, FileStep.sendStep]).flatten
          ++ [FileStep.freadStep, FileStep.sendStep, FileStep.logErr,
              FileStep.fcloseStep, FileStep.unlock])
        = FileStep.lock :: FileStep.fopenStep
          :: ((List.replicate m [FileStep.freadStep, FileStep.sendStep]).flatten
            ++ [FileStep.freadStep, FileStep.sendStep, FileStep.logErr,
                FileStep.fcloseStep, FileStep.unlock]) by simp]
      simp only [wellLockedFrom, touchesFile]
      rw [wellLockedFrom_rounds]
      decide
    | openFail => decide
  · have : b ∈ (appendsOf (ops.take k)).flatten := hmem
    obtain ⟨r, hr, hbr⟩ := List.mem_flatten.mp this
    exact ⟨r, hr, hbr⟩

/-- Witness for c3_file_ops_hold_mutex on concrete paths and a concrete
one-append trace. -/
theorem c3_file_ops_hold_mutex_witness :
    wellLocked (handle_client_append_steps AppendPath.shortWrite) = true ∧
      wellLocked (send_file_to_client_steps (StreamPath.ok 2)) = true ∧
      (97 : Nat) ∈ streamAt [LogOp.append [97, 10], LogOp.streamTo] 1 ∧
      ∃ r, r ∈ appendsOf (([LogOp.append [97, 10], LogOp.streamTo] : List LogOp).take 1)
        ∧ (97 : Nat) ∈ r :=
  ⟨c3_file_ops_hold_mutex.1 AppendPath.shortWrite,
    c3_file_ops_hold_mutex.2.2.1 (StreamPath.ok 2),
    by decide,
    c3_file_ops_hold_mutex.2.2.2 [LogOp.append [97, 10], LogOp.streamTo] 1 97 (by decide)⟩

theorem splitFirst_append_left {u v p r : List Nat} (h : splitFirst u = some (p, r)) :
    splitFirst (u ++ v) = some (p, r ++ v) := by
  induction u generalizing p r with
  | nil => simp [splitFirst] at h
  | cons b rest ih =>
    by_cases hb : b = NEWLINE
    · simp [splitFirst, hb] at h ⊢
      obtain ⟨hp, hr⟩ := h
      subst hp; subst hr
      exact ⟨rfl, rfl⟩
    · simp only [splitFirst, if_neg hb] at h
      cases hrest : splitFirst rest with
      | none => rw [hrest] at h; simp at h
      | some pr' =>
        obtain ⟨p', r'⟩ := pr'
        rw [hrest] at h
        simp at h
        obtain ⟨hp, hr⟩ := h
        subst hp; subst hr
        rw [List.cons_append]
        simp only [splitFirst, if_neg hb]
        rw [ih hrest]

theorem records_append (u v : List Nat) :
    records (u ++ v) = records u ++ records (leftover u ++ v) := by
  generalize hn : u.length = n
  induction n using Nat.strong_induction_on generalizing u with
  | _ n ih =>
    cases h : splitFirst u with
    | none =>
      rw [records_none h, leftover_none h]
      simp
    | some pr =>
      obtain ⟨p, r⟩ := pr
      have hlt : r.length < u.length := splitFirst_length h
      subst hn
      rw [records_some (splitFirst_append_left h), records_some h, leftover_some h,
        List.cons_append, ih r.length hlt r rfl]

theorem leftover_append (u v : List Nat) :
    leftover (u ++ v) = leftover (leftover u ++ v) := by
  generalize hn : u.length = n
  induction n using Nat.strong_induction_on generalizing u with
  | _ n ih =>
    cases h : splitFirst u with
    | none => rw [leftover_none h]
    | some pr =>
      obtain ⟨p, r⟩ := pr
      have hlt : r.length < u.length := splitFirst_length h
      subst hn
      rw [leftover_some (splitFirst_append_left h), leftover_some h,
        ih r.length hlt r rfl]

theorem expectedStreams_append (log : List Nat) (rs1 rs2 : List (List Nat)) :
    expectedStreams log (rs1 ++ rs2)
      = expectedStreams log rs1 ++ expectedStreams (log ++ rs1.flatten) rs2 := by
  induction rs1 generalizing log with
  | nil => simp [expectedStreams]
  | cons r rest ih =>
    simp [expectedStreams, ih, List.append_assoc]

/-- Model of the outer receive loop of handle_client (lines 267-328) over
the sequence of chunks returned by successive recv calls until the peer
closes the connection: each chunk is copied to the end of the elastic
buffer (line 291) and the packet loop then consumes every complete record
(lines 296-327).  At end-of-stream the loop exits and the remaining buffer
is freed without being appended (lines 330-334). -/
def handle_client_recv_loop (log buf : List Nat) :
    List (List Nat) → List Nat × List Nat × List (List Nat)
  | [] => (log, buf, [])
  | c :: cs =>
    let res := processBuffer log (buf ++ c)
    let res' := handle_client_recv_loop res.1 res.2.1 cs
    (res'.1, res'.2.1, res.2.2 ++ res'.2.2)

/-- Chunked reception is equivalent to receiving the concatenated bytes at
once, provided the pending buffer holds no complete record (which the
packet loop guarantees between iterations). -/
theorem handle_client_recv_loop_eq (chunks : List (List Nat)) (log buf : List Nat)
    (hbuf : NEWLINE ∉ buf) :
    handle_client_recv_loop log buf chunks = processBuffer log (buf ++ chunks.flatten) := by
  induction chunks generalizing log buf with
  | nil =>
    rw [List.flatten_nil, List.append_nil,
      processBuffer_none (splitFirst_none_iff.mpr hbuf)]
    rfl
  | cons c cs ih =>
    simp only [handle_client_recv_loop]
    rw [ih _ _ (by rw [processBuffer_eq]; exact leftover_no_newline (buf ++ c))]
    rw [processBuffer_eq, processBuffer_eq, processBuffer_eq]
    rw [List.flatten_cons, show buf ++ (c ++ cs.flatten) = (buf ++ c) ++ cs.flatten by simp,
      records_append (buf ++ c) cs.flatten, leftover_append (buf ++ c) cs.flatten]
    simp [List.flatten_append, expectedStreams_append, List.append_assoc]

/-- C4: when a connection reaches end-of-stream with trailing bytes not
terminated by a newline, those bytes are exactly the part of the received
data missing from the final log (they are freed, never appended): the final
log extends the starting log by the complete records only, the discarded
tail contains no newline, and every stream-back output over the whole
session is an initial segment of the final log, hence contains none of the
discarded bytes. -/
theorem c4_unterminated_tail_never_appended (log : List Nat) (chunks : List (List Nat)) :
    (handle_client_recv_loop log [] chunks).1 ++ (handle_client_recv_loop log [] chunks).2.1
        = log ++ chunks.flatten ∧
      (handle_client_recv_loop log [] chunks).1
        = log ++ (records chunks.flatten).flatten ∧
      NEWLINE ∉ (handle_client_recv_loop log [] chunks).2.1 ∧
      ((handle_client_recv_loop log [] chunks).2.2.all
        (fun s => s.isPrefixOf (handle_client_recv_loop log [] chunks).1)) = true := by
  rw [handle_client_recv_loop_eq chunks log [] (by simp), processBuffer_eq]
  simp only [List.nil_append]
  refine ⟨?_, trivial, leftover_no_newline chunks.flatten, ?_⟩
  · rw [List.append_assoc, records_join_leftover]
  · rw [List.all_eq_true]
    intro s hs
    rw [List.isPrefixOf_iff_prefix]
    obtain ⟨t, ht⟩ := expectedStreams_mem hs rfl
    exact ⟨t, ht⟩

/-- Effect on the log of one append attempt in the append block of
handle_client (lines 302-311): none models an fopen failure (only an error
is logged, nothing written); some w models an fwrite call that wrote w
bytes of the packet before fclose (w less than the packet length is the
short write whose only handling is the error log at line 306). -/
def appendResult : Option Nat → List Nat → List Nat → List Nat
  | none, log, _ => log
  | some w, log, p => log ++ p.take w

/-- The packet loop of handle_client with an explicit outcome for each
append attempt (outcomes beyond the given list default to full success).
Whatever the outcome of the append, the worker proceeds to the stream-back
of the current file content (line 315 runs unconditionally after the mutex
block of lines 301-312). -/
def processBufferF (outs : List (Option Nat)) (log buf : List Nat) :
    List Nat × List Nat × List (List Nat) :=
  match h : splitFirst buf with
  | none => (log, buf, [])
  | some (p, r) =>
    let log' := appendResult (outs.headD (some p.length)) log p
    let res := processBufferF outs.tail log' r
    (res.1, res.2.1, log' :: res.2.2)
termination_by buf.length
decreasing_by exact splitFirst_length h

/-- The bytes each record contributes to the log under the given append
outcomes: nothing on open failure, the written first w bytes on a write of
w bytes. -/
def appliedRecords : List (Option Nat) → List (List Nat) → List (List Nat)
  | _, [] => []
  | outs, p :: ps =>
    (match outs.headD (some p.length) with
      | none => ([] : List Nat)
      | some w => p.take w) :: appliedRecords outs.tail ps

theorem processBufferF_none {outs : List (Option Nat)} {log buf : List Nat}
    (h : splitFirst buf = none) : processBufferF outs log buf = (log, buf, []) := by
  rw [processBufferF.eq_def]
  split
  · rfl
  · rename_i p r heq
    rw [h] at heq
    exact absurd heq (by simp)

theorem processBufferF_some {outs : List (Option Nat)} {log buf p r : List Nat}
    (h : splitFirst buf = some (p, r)) :
    processBufferF outs log buf =
      ((processBufferF outs.tail (appendResult (outs.headD (some p.length)) log p) r).1,
        (processBufferF outs.tail (appendResult (outs.headD (some p.length)) log p) r).2.1,
        appendResult (outs.headD (some p.length)) log p
          :: (processBufferF outs.tail (appendResult (outs.headD (some p.length)) log p) r).2.2) := by
  rw [processBufferF.eq_def]
  split
  · rename_i heq
    rw [h] at heq
    exact absurd heq (by simp)
  · rename_i p' r' heq
    rw [h] at heq
    injection heq with heq'
    injection heq' with hp hr
    subst hp; subst hr
    rfl

theorem appendResult_eq_append (o : Option Nat) (log p : List Nat) :
    appendResult o log p
      = log ++ (match o with | none => ([] : List Nat) | some w => p.take w) := by
  cases o with
  | none => simp [appendResult]
  | some w => simp [appendResult]

/-- The packet loop under append outcomes computes the log extended by
exactly the applied bytes of each record, still drains the buffer to the
unterminated tail, and still produces one stream-back per complete record,
each equal to the file content after that record's append attempt. -/
theorem processBufferF_eq (outs : List (Option Nat)) (log buf : List Nat) :
    processBufferF outs log buf
      = (log ++ (appliedRecords outs (records buf)).flatten, leftover buf,
          expectedStreams log (appliedRecords outs (records buf))) := by
  generalize hn : buf.length = n
  induction n using Nat.strong_induction_on generalizing outs log buf with
  | _ n ih =>
    cases h : splitFirst buf with
    | none =>
      rw [processBufferF_none h, records_none h, leftover_none h]
      simp [appliedRecords, expectedStreams]
    | some pr =>
      obtain ⟨p, r⟩ := pr
      have hlt : r.length < buf.length := splitFirst_length h
      subst hn
      have hr := ih r.length hlt outs.tail
        (appendResult (outs.headD (some p.length)) log p) r rfl
      rw [processBufferF_some h, records_some h, leftover_some h, hr]
      rw [appendResult_eq_append]
      simp only [appliedRecords, expectedStreams, List.flatten_cons, List.append_assoc]

theorem appliedRecords_length (outs : List (Option Nat)) (rs : List (List Nat)) :
    (appliedRecords outs rs).length = rs.length := by
  induction rs generalizing outs with
  | nil => rfl
  | cons p ps ih => simp [appliedRecords, ih]

theorem expectedStreams_length (log : List Nat) (rs : List (List Nat)) :
    (expectedStreams log rs).length = rs.length := by
  induction rs generalizing log with
  | nil => rfl
  | cons p ps ih => simp [expectedStreams, ih]

theorem appliedRecords_nil (rs : List (List Nat)) : appliedRecords [] rs = rs := by
  induction rs with
  | nil => rfl
  | cons p ps ih => simp [appliedRecords, ih]

/-- Counterexample to C5 as stated: an fwrite that is short (1 of the 2
bytes of the record 97 10 written; the code only logs the error at line
306 and closes the file) does not simply lose the record: the written
first byte remains in the log, which is no longer the unchanged starting
log and now ends without a newline (a partial record). -/
theorem c5_short_write_leaves_partial_record_counterexample :
    (processBufferF [some 1] [] [97, 10]).1 = [97] ∧
      ([97] : List Nat) ≠ ([] : List Nat) ∧
      NEWLINE ∉ (processBufferF [some 1] [] [97, 10]).1 := by
  rw [processBufferF_eq]
  refine ⟨by decide, by decide, by decide⟩

/-- C5 amended: when an append attempt fails, the failure is only logged;
on an fopen failure the record is wholly lost, while on a short write the
written prefix of the record remains in the log; in every case the store
is not poisoned (the loop continues and outcomes apply record by record,
with full-success outcomes behaving exactly like the plain loop) and the
worker still performs the stream-back for that record (one stream-back per
complete record, failed appends included). -/
theorem c5_failed_append_logged_store_usable :
    (∀ outs log buf, processBufferF outs log buf
        = (log ++ (appliedRecords outs (records buf)).flatten, leftover buf,
            expectedStreams log (appliedRecords outs (records buf)))) ∧
      (∀ outs log buf,
        (processBufferF outs log buf).2.2.length = (records buf).length) ∧
      (∀ log buf, processBufferF [] log buf = processBuffer log buf) ∧
      (processBufferF [none, some 2] [] [97, 10, 98, 10]).1 = [98, 10] := by
  refine ⟨processBufferF_eq, fun outs log buf => ?_, fun log buf => ?_, ?_⟩
  · rw [processBufferF_eq]
    simp [expectedStreams_length, appliedRecords_length]
  · rw [processBufferF_eq, processBuffer_eq, appliedRecords_nil]
  · rw [processBufferF_eq]
    decide

/-- The packet loop of handle_client with an explicit outcome for each
stream-back send (send outcomes beyond the given list default to success):
the record is appended under the mutex (lines 301-312) and the file is then
streamed back (line 315); if send_file_to_client returns -1 the worker
frees its buffer, logs the connection close, sets its completed flag and
returns immediately (lines 316-319), leaving any further complete records
in the buffer unprocessed and never retrying.  Returns the final log, the
unprocessed buffer remainder, the stream-backs fully delivered, and
whether the worker terminated early on a send failure. -/
def processBufferS (sends : List Bool) (log buf : List Nat) :
    List Nat × List Nat × List (List Nat) × Bool :=
  match h : splitFirst buf with
  | none => (log, buf, [], false)
  | some (p, r) =>
    if sends.headD true then
      let res := processBufferS sends.tail (log ++ p) r
      (res.1, res.2.1, (log ++ p) :: res.2.2.1, res.2.2.2)
    else (log ++ p, r, [], true)
termination_by buf.length
decreasing_by exact splitFirst_length h

theorem processBufferS_none {sends : List Bool} {log buf : List Nat}
    (h : splitFirst buf = none) : processBufferS sends log buf = (log, buf, [], false) := by
  rw [processBufferS.eq_def]
  split
  · rfl
  · rename_i p r heq
    rw [h] at heq
    exact absurd heq (by simp)

theorem processBufferS_some {sends : List Bool} {log buf p r : List Nat}
    (h : splitFirst buf = some (p, r)) :
    processBufferS sends log buf =
      (if sends.headD true then
        ((processBufferS sends.tail (log ++ p) r).1,
          (processBufferS sends.tail (log ++ p) r).2.1,
          (log ++ p) :: (processBufferS sends.tail (log ++ p) r).2.2.1,
          (processBufferS sends.tail (log ++ p) r).2.2.2)
      else (log ++ p, r, [], true)) := by
  rw [processBufferS.eq_def]
  split
  · rename_i heq
    rw [h] at heq
    exact absurd heq (by simp)
  · rename_i p' r' heq
    rw [h] at heq
    injection heq with heq'
    injection heq' with hp hr
    subst hp; subst hr
    rfl

theorem records_ne_nil_split {buf : List Nat} (h : records buf ≠ []) :
    ∃ p r, splitFirst buf = some (p, r) := by
  cases hs : splitFirst buf with
  | none => exact absurd (records_none hs) h
  | some pr =>
    obtain ⟨p, r⟩ := pr
    exact ⟨p, r, rfl⟩

/-- C6: if the first i stream-back sends succeed and the send for record
i+1 fails, the worker stops at that point: the records up to and including
the failed one are in the log (the append precedes the send), exactly i
stream-backs were delivered, every later complete record already buffered
remains unprocessed in the remainder, there is no retry, and the worker
terminated (it returns after freeing its buffer, so only this connection
ends). -/
theorem c6_send_failure_terminates_worker (i : Nat) (rest : List Bool) (log buf : List Nat)
    (hi : i < (records buf).length) :
    processBufferS (List.replicate i true ++ false :: rest) log buf
      = (log ++ ((records buf).take (i + 1)).flatten,
          ((records buf).drop (i + 1)).flatten ++ leftover buf,
          expectedStreams log ((records buf).take i), true) := by
  induction i generalizing log buf with
  | zero =>
    obtain ⟨p, r, hs⟩ := records_ne_nil_split (by intro hnil; rw [hnil] at hi; simp at hi)
    rw [processBufferS_some hs]
    rw [show (List.replicate 0 true ++ false :: rest).headD true = false from rfl]
    rw [if_neg (by simp)]
    rw [records_some hs, leftover_some hs]
    simp only [List.take_succ_cons, List.take_zero, List.drop_succ_cons, List.drop_zero,
      List.flatten_cons, List.flatten_nil, List.append_nil, expectedStreams]
    rw [records_join_leftover r]
  | succ i' ih =>
    obtain ⟨p, r, hs⟩ := records_ne_nil_split (by intro hnil; rw [hnil] at hi; simp at hi)
    rw [processBufferS_some hs]
    rw [show (List.replicate (i' + 1) true ++ false :: rest).headD true = true from rfl]
    rw [if_pos rfl]
    have hi' : i' < (records r).length := by
      have := records_some hs
      rw [this] at hi
      simpa using hi
    rw [show (List.replicate (i' + 1) true ++ false :: rest).tail
        = List.replicate i' true ++ false :: rest from rfl]
    rw [ih (log ++ p) r hi']
    rw [records_some hs]
    simp only [List.take_succ_cons, List.drop_succ_cons, List.flatten_cons,
      List.append_assoc, expectedStreams, leftover_some hs]

/-- Witness for c6_send_failure_terminates_worker: the very first
stream-back fails on a buffer holding two complete records; only the first
record was appended, no stream-back was delivered, the second record is
left unprocessed and the worker terminated. -/
theorem c6_send_failure_terminates_worker_witness :
    0 < (records [97, 10, 98, 10]).length ∧
      processBufferS (List.replicate 0 true ++ false :: []) [] [97, 10, 98, 10]
        = ([97, 10], [98, 10], [], true) :=
  ⟨by decide, by
    rw [c6_send_failure_terminates_worker 0 [] [] [97, 10, 98, 10] (by decide)]
    decide⟩

/-- The process state cleanup_and_exit acts on: whether the interval timer
is armed, whether DATA_FILE exists, whether the listening socket is open,
and the completed flags of the registered workers. -/
structure ShutdownView where
  timerActive : Bool
  fileExists : Bool
  serverOpen : Bool
  workers : List Bool
deriving DecidableEq

/-- The drain loop of cleanup_and_exit (lines 179-191): repeatedly join
the head worker and remove its entry; the pthread_join result is never
examined, so the per-join error flags cannot influence the outcome. -/
def drain_workers : List Bool → List Bool → List Bool
  | [], _ => []
  | _ :: ws, errs => drain_workers ws errs.tail

/-- Model of cleanup_and_exit (lines 162-205): timer_delete (line 167),
shutdown and join of every worker with errors ignored (lines 170-191),
close of the listening socket (lines 193-196), and unconditional
unlink of DATA_FILE (line 199). -/
def cleanup_and_exit (st : ShutdownView) (drainErrs : List Bool) : ShutdownView :=
  let st1 : ShutdownView := { st with timerActive := false }
  let st2 : ShutdownView := { st1 with workers := drain_workers st1.workers drainErrs }
  let st3 : ShutdownView := { st2 with serverOpen := false }
  { st3 with fileExists := false }

/-- Model of the end of main (lines 465-519): once the accept loop exits
on the caught signal, main calls cleanup_and_exit and returns 0. -/
def main_shutdown (st : ShutdownView) (drainErrs : List Bool) : ShutdownView × Int :=
  (cleanup_and_exit st drainErrs, 0)

theorem drain_workers_eq_nil (ws errs : List Bool) : drain_workers ws errs = [] := by
  induction ws generalizing errs with
  | nil => rfl
  | cons w ws ih => simp [drain_workers, ih]

/-- C7: after a termination signal the shutdown path unconditionally
removes the log file, drains every worker while ignoring (only logging)
any error arising during the drain (the outcome is the same for any error
pattern), and main returns 0; the log file does not exist in the final
state. -/
theorem c7_clean_shutdown_removes_log_exits_zero
    (st : ShutdownView) (drainErrs drainErrsOther : List Bool) :
    (main_shutdown st drainErrs).1.fileExists = false ∧
      (main_shutdown st drainErrs).2 = 0 ∧
      (main_shutdown st drainErrs).1.workers = [] ∧
      main_shutdown st drainErrs = main_shutdown st drainErrsOther := by
  refine ⟨rfl, rfl, ?_, ?_⟩
  · simp [main_shutdown, cleanup_and_exit, drain_workers_eq_nil]
  · simp [main_shutdown, cleanup_and_exit, drain_workers_eq_nil]

/-- Worker-side steps at termination, together with the registry mutex
operations (which handle_client never performs: thread_list_mutex is
touched only by main and cleanup_and_exit). -/
inductive WStep
  | freeBuf | logClose | setCompleted | lockReg | unlockReg | ret
deriving DecidableEq

/-- The four per-connection-fatal termination reasons of handle_client. -/
inductive TermReason
  | peerClose | recvError | allocFail | sendFail
deriving DecidableEq

/-- The exact step sequence handle_client performs on each termination
path: peer close (recv returned 0, line 273), receive error (line 270) and
allocation failure (line 282) all break out of the loop to lines 330-334;
a stream-back send failure returns at lines 316-319.  Every path performs
free(buffer), the close syslog line, the plain write
thread_complete = true, and the return, in that order, with no registry
mutex operation. -/
def handle_client_termination_steps : TermReason → List WStep
  | .peerClose => [.freeBuf, .logClose, .setCompleted, .ret]
  | .recvError => [.freeBuf, .logClose, .setCompleted, .ret]
  | .allocFail => [.freeBuf, .logClose, .setCompleted, .ret]
  | .sendFail => [.freeBuf, .logClose, .setCompleted, .ret]

/-- Whether some setCompleted step occurs while the registry mutex is held
(hold depth from lockReg/unlockReg at least 1 at that step). -/
def setCompletedUnderRegLock : Nat → List WStep → Bool
  | _, [] => false
  | d, .lockReg :: s => setCompletedUnderRegLock (d + 1) s
  | d, .unlockReg :: s => setCompletedUnderRegLock (d - 1) s
  | d, .setCompleted :: s => d != 0 || setCompletedUnderRegLock d s
  | d, _ :: s => setCompletedUnderRegLock d s

/-- Counterexample to C8 as stated: on the peer-close termination path the
worker does set its completed flag, but not under the registry exclusion
primitive: handle_client performs no registry lock operation at all (lines
330-334 write thread_complete without touching thread_list_mutex). -/
theorem c8_completed_flag_without_registry_lock_counterexample :
    WStep.setCompleted ∈ handle_client_termination_steps TermReason.peerClose ∧
      setCompletedUnderRegLock 0 (handle_client_termination_steps TermReason.peerClose)
        = false ∧
      WStep.lockReg ∉ handle_client_termination_steps TermReason.peerClose := by
  decide

/-- C8 amended: on every termination path of a worker (peer close, receive
error, allocation failure, or send failure during stream-back) the worker
sets its registry completed flag as its last action before returning (the
final two steps are setCompleted then ret), but it does so as a plain
write, without acquiring the registry's exclusion primitive. -/
theorem c8_completed_flag_last_action_unlocked (reason : TermReason) :
    (handle_client_termination_steps reason).getLast? = some WStep.ret ∧
      (handle_client_termination_steps reason)[(handle_client_termination_steps reason).length - 2]?
        = some WStep.setCompleted ∧
      WStep.lockReg ∉ handle_client_termination_steps reason ∧
      WStep.unlockReg ∉ handle_client_termination_steps reason := by
  cases reason <;> decide

/-- Result of the option-parsing loop of main (lines 393-404): either the
program proceeds with the daemon flag, or it prints the usage line and
returns -1. -/
inductive ParseResult
  | ok (daemonMode : Bool)
  | usageError
deriving DecidableEq

/-- How getopt treats one argv element: a lone double dash ends option
scanning; a dash followed by at least one character is an option cluster;
anything else (including a bare dash) is a non-option argument, which
glibc permutes to the end and never treats as an option. -/
inductive ArgClass
  | optEnd
  | cluster (cs : List Char)
  | nonOption
deriving DecidableEq

def classifyArg : List Char → ArgClass
  | '-' :: '-' :: [] => ArgClass.optEnd
  | '-' :: c :: cs => ArgClass.cluster (c :: cs)
  | _ => ArgClass.nonOption

/-- The characters of one option cluster scanned as getopt("d") does: the
character d sets daemon_mode (line 397), any other character is the
unknown-option case caught by the default branch (lines 399-402). -/
def scan_cluster (daemon : Bool) : List Char → Option Bool
  | [] => some daemon
  | c :: cs => if c = 'd' then scan_cluster true cs else none

/-- Model of the getopt("d") loop of main (lines 394-404) over the argv
elements after the program name: an unrecognized option character makes
main print the usage line and return -1; non-option arguments are skipped
by getopt and main never examines them afterwards. -/
def getopt_loop (daemon : Bool) : List (List Char) → ParseResult
  | [] => ParseResult.ok daemon
  | arg :: rest =>
    match classifyArg arg with
    | ArgClass.optEnd => ParseResult.ok daemon
    | ArgClass.cluster cl =>
      match scan_cluster daemon cl with
      | none => ParseResult.usageError
      | some daemon1 => getopt_loop daemon1 rest
    | ArgClass.nonOption => getopt_loop daemon rest

def parse_argv (args : List (List Char)) : ParseResult := getopt_loop false args

/-- The usage message printed to stderr at line 400. -/
def usage_message (prog : List Char) : List Char :=
  String.toList "Usage: " ++ prog ++ String.toList " [-d]"

/-- Return value of main when parsing rejects the command line: -1 (line
402); none means startup proceeds. -/
def main_parse_exit (args : List (List Char)) : Option Int :=
  match parse_argv args with
  | ParseResult.usageError => some (-1)
  | ParseResult.ok _ => none

/-- An argument list holds an unrecognized option: before any lone
double-dash terminator, some option cluster holds a character other
than d. -/
def hasBadOption : List (List Char) → Bool
  | [] => false
  | arg :: rest =>
    match classifyArg arg with
    | ArgClass.optEnd => false
    | ArgClass.cluster cl => cl.any (fun x => x != 'd') || hasBadOption rest
    | ArgClass.nonOption => hasBadOption rest

theorem scan_cluster_none_iff (d : Bool) (cl : List Char) :
    scan_cluster d cl = none ↔ cl.any (fun x => x != 'd') = true := by
  induction cl generalizing d with
  | nil => simp [scan_cluster]
  | cons c cs ih =>
    by_cases hc : c = 'd'
    · simp [scan_cluster, hc, ih]
    · simp [scan_cluster, hc]

theorem getopt_loop_usage_iff (args : List (List Char)) :
    ∀ d, (getopt_loop d args = ParseResult.usageError ↔ hasBadOption args = true) := by
  induction args with
  | nil =>
    intro d
    simp [getopt_loop, hasBadOption]
  | cons arg rest ih =>
    intro d
    cases hc : classifyArg arg with
    | optEnd => simp [getopt_loop, hasBadOption, hc]
    | cluster cl =>
      cases hs : scan_cluster d cl with
      | none =>
        have hbad := (scan_cluster_none_iff d cl).mp hs
        simp [getopt_loop, hasBadOption, hc, hs, hbad]
      | some d1 =>
        have hgood : ¬cl.any (fun x => x != 'd') = true := by
          intro hbad
          rw [(scan_cluster_none_iff d cl).mpr hbad] at hs
          simp at hs
        simp [getopt_loop, hasBadOption, hc, hs, ih, hgood]
    | nonOption => simp [getopt_loop, hasBadOption, hc, ih]

/-- Counterexample to C9 as stated: a positional argument is not part of
the accepted usage (one optional -d flag, no other arguments), yet getopt
skips non-option arguments and main never examines them, so the program
proceeds normally instead of printing the usage line and exiting
non-zero. -/
theorem c9_positional_argument_accepted_counterexample :
    parse_argv [String.toList "hello"] = ParseResult.ok false ∧
      main_parse_exit [String.toList "hello"] = none ∧
      [String.toList "hello"] ≠ ([] : List (List Char)) ∧
      [String.toList "hello"] ≠ [String.toList "-d"] := by
  decide

/-- C9 amended: the command line is rejected, with the usage line printed
to the diagnostic stream and a non-zero return from main, exactly when
some option cluster holds a character other than d; the flag -d sets
daemon mode; non-option (positional) arguments are not rejected but
silently ignored. -/
theorem c9_cli_usage_on_unrecognized_option :
    (∀ args, parse_argv args = ParseResult.usageError ↔ hasBadOption args = true) ∧
      (∀ args, hasBadOption args = true → main_parse_exit args = some (-1)) ∧
      (-1 : Int) ≠ 0 ∧
      parse_argv [String.toList "-d"] = ParseResult.ok true ∧
      parse_argv [] = ParseResult.ok false ∧
      usage_message (String.toList "aesdsocket") = String.toList "Usage: aesdsocket [-d]" := by
  refine ⟨fun args => getopt_loop_usage_iff args false, fun args h => ?_, by decide,
    by decide, by decide, by decide⟩
  have hp : parse_argv args = ParseResult.usageError :=
    (getopt_loop_usage_iff args false).mpr h
  simp [main_parse_exit, hp]

/-- Witness for c9_cli_usage_on_unrecognized_option: the unrecognized
option -x is rejected with return value -1. -/
theorem c9_cli_usage_on_unrecognized_option_witness :
    hasBadOption [String.toList "-x"] = true ∧
      main_parse_exit [String.toList "-x"] = some (-1) :=
  ⟨by decide, c9_cli_usage_on_unrecognized_option.2.1 [String.toList "-x"] (by decide)⟩

/-- Capacity after the growth check of handle_client (lines 279-288): if
the pending bytes plus the arriving chunk would overflow the buffer, the
capacity grows by exactly one BUFFER_SIZE increment (line 280), else it is
unchanged.  (On realloc success; an allocation failure terminates the
worker before any copy, line 282.) -/
def grow_size (buffer_used buffer_size bytes_received : Nat) : Nat :=
  if buffer_used + bytes_received > buffer_size then buffer_size + BUFFER_SIZE
  else buffer_size

/-- The receive-loop buffer bookkeeping over a connection: each recv chunk
grows the capacity if needed and is copied in at offset buffer_used (line
291), and the packet loop then consumes every complete record, leaving the
leftover bytes pending.  Tracks the pending bytes (whose length is
buffer_used) and the capacity buffer_size. -/
def recv_loop_sizes (buf : List Nat) (size : Nat) : List (List Nat) → List Nat × Nat
  | [] => (buf, size)
  | c :: cs =>
    recv_loop_sizes (leftover (buf ++ c)) (grow_size buf.length size c.length) cs

/-- Checks along the loop that every copy fits: at each step, after the
growth check, buffer_used + bytes_received does not exceed the capacity,
so the memcpy at line 291 never writes past the allocation. -/
def recv_loop_safe (buf : List Nat) (size : Nat) : List (List Nat) → Bool
  | [] => true
  | c :: cs =>
    decide (buf.length + c.length ≤ grow_size buf.length size c.length) &&
      recv_loop_safe (leftover (buf ++ c)) (grow_size buf.length size c.length) cs

theorem leftover_length_le (buf : List Nat) : (leftover buf).length ≤ buf.length := by
  conv_rhs => rw [← records_join_leftover buf]
  simp [List.length_append]

/-- C10: starting from the empty buffer (or any state satisfying the
invariant buffer_used ≤ buffer_size), for chunks of at most BUFFER_SIZE
bytes each (recv reads into a BUFFER_SIZE-byte array, line 268), the
single-increment growth step always suffices: at every iteration
buffer_used + bytes_received fits within the possibly-grown capacity, the
copy never writes past the allocation, and the invariant is preserved to
the end of the loop, for records of any length. -/
theorem c10_single_increment_growth_suffices (chunks : List (List Nat))
    (buf : List Nat) (size : Nat) (hinv : buf.length ≤ size)
    (hchunks : ∀ c ∈ chunks, c.length ≤ BUFFER_SIZE) :
    recv_loop_safe buf size chunks = true ∧
      (recv_loop_sizes buf size chunks).1.length ≤ (recv_loop_sizes buf size chunks).2 := by
  induction chunks generalizing buf size with
  | nil => exact ⟨rfl, hinv⟩
  | cons c cs ih =>
    have hc : c.length ≤ BUFFER_SIZE := hchunks c (by simp)
    have hstep : buf.length + c.length ≤ grow_size buf.length size c.length := by
      unfold grow_size
      split <;> omega
    have hnext : (leftover (buf ++ c)).length ≤ grow_size buf.length size c.length := by
      have hlen := leftover_length_le (buf ++ c)
      rw [List.length_append] at hlen
      omega
    obtain ⟨h1, h2⟩ := ih (leftover (buf ++ c)) (grow_size buf.length size c.length) hnext
      (fun c' hc' => hchunks c' (by simp [hc']))
    refine ⟨?_, h2⟩
    simp [recv_loop_safe, hstep, h1]

/-- Witness for c10_single_increment_growth_suffices: the empty initial
buffer with zero capacity and one three-byte chunk holding one complete
record. -/
theorem c10_single_increment_growth_suffices_witness :
    ([] : List Nat).length ≤ 0 ∧ (∀ c ∈ [[97, 10, 98]], c.length ≤ BUFFER_SIZE) ∧
      (recv_loop_safe [] 0 [[97, 10, 98]] = true ∧
        (recv_loop_sizes [] 0 [[97, 10, 98]]).1.length
          ≤ (recv_loop_sizes [] 0 [[97, 10, 98]]).2) :=
  ⟨by decide, by decide,
    c10_single_increment_growth_suffices [[97, 10, 98]] [] 0 (by decide) (by decide)⟩

end Aesdsocket
